import Mathlib

/-!
Shallow embedding of `src/program-runtime/src/profiling_state.rs`
(Lightprotocol/agave): a nested-span compute-unit / heap profiler.

Rust `u64` values are modelled as `Nat`; `saturating_sub` is `Nat`
truncated subtraction (which saturates at zero by definition).  The only
place unchecked `u64` addition occurs in the source is the `+=`
accumulation of children totals inside `post_process`; there the
embedding reduces modulo `2 ^ 64` at each step, matching wrapping `u64`
addition.  Rust `usize` sequence numbers never overflow in practice and
are modelled as plain `Nat`.
-/

def U64_MOD : Nat := 2 ^ 64

structure ActiveEntry where
  id : String
  start_cu : Nat
  start_sequence : Nat
  start_heap : Option Nat
deriving DecidableEq

structure HeapMetrics where
  start_heap : Nat
  end_heap : Nat
  total_heap : Nat
  net_heap : Nat
  remaining_heap : Nat
deriving DecidableEq

structure CompletedEntry where
  id : String
  start_cu : Nat
  end_cu : Nat
  start_sequence : Nat
  end_sequence : Nat
  total_cu : Nat
  net_cu : Nat
  remaining_cu : Nat
  heap : Option HeapMetrics
deriving DecidableEq

structure ProfilingState where
  active_stack : List ActiveEntry
  completed : List CompletedEntry
  next_sequence : Nat
deriving DecidableEq

def ProfilingState.new : ProfilingState :=
  { active_stack := [], completed := [], next_sequence := 0 }

/-- `start`: push a new active entry and advance the sequence counter. -/
def ProfilingState.start (s : ProfilingState) (id : String)
    (current_cu heap_value : Nat) (with_heap : Bool) : ProfilingState :=
  let entry : ActiveEntry :=
    { id := id
      start_cu := current_cu
      start_sequence := s.next_sequence
      start_heap := if with_heap then some heap_value else none }
  { s with
      active_stack := s.active_stack ++ [entry]
      next_sequence := s.next_sequence + 1 }

/-- Combined effect of Rust `Vec::rposition` followed by `Vec::remove`:
returns the LAST element of the list whose id matches, together with the
list with exactly that occurrence removed (all other elements kept in
order). -/
def removeLastMatch (id : String) : List ActiveEntry → Option (ActiveEntry × List ActiveEntry)
  | [] => none
  | e :: rest =>
    match removeLastMatch id rest with
    | some (found, rest2) => some (found, e :: rest2)
    | none => if e.id = id then some (e, rest) else none

/-- `end` (a Lean keyword, hence `end_`): Rust mutates `&mut self` and
returns `Result<(), String>`; the embedding returns the result paired
with the post-state (on error the state is returned unchanged, matching
the early `?` return before any mutation). -/
def ProfilingState.end_ (s : ProfilingState) (id : String)
    (current_cu heap_value : Nat) (with_heap : Bool) :
    Except String Unit × ProfilingState :=
  match removeLastMatch id s.active_stack with
  | none => (Except.error ("No active profiling section found for ID: " ++ id), s)
  | some (active_entry, rest) =>
    let total_cu := active_entry.start_cu - current_cu
    let heap : Option HeapMetrics :=
      match active_entry.start_heap with
      | some start_heap_value =>
        if with_heap then
          some
            { start_heap := start_heap_value
              end_heap := heap_value
              total_heap := heap_value - start_heap_value
              net_heap := 0
              remaining_heap := 32000 - start_heap_value }
        else
          none
      | none => none
    let completed_entry : CompletedEntry :=
      { id := active_entry.id
        start_cu := active_entry.start_cu
        end_cu := current_cu
        start_sequence := active_entry.start_sequence
        end_sequence := s.next_sequence
        total_cu := total_cu
        net_cu := 0
        remaining_cu := active_entry.start_cu
        heap := heap }
    (Except.ok (),
      { active_stack := rest
        completed := s.completed ++ [completed_entry]
        next_sequence := s.next_sequence + 1 })

/-- The strict sequence-containment test of `post_process`'s inner loop. -/
def isChildOf (entry other : CompletedEntry) : Prop :=
  entry.start_sequence < other.start_sequence ∧ other.end_sequence < entry.end_sequence

instance (entry other : CompletedEntry) : Decidable (isChildOf entry other) :=
  inferInstanceAs (Decidable (_ ∧ _))

/-- `children_cu` accumulation of `post_process`: wrapping `u64` addition
over all strictly contained entries. -/
def childrenCu (l : List CompletedEntry) (entry : CompletedEntry) : Nat :=
  l.foldl
    (fun acc other =>
      if isChildOf entry other then (acc + other.total_cu) % U64_MOD else acc) 0

/-- `children_heap` accumulation of `post_process`: contained entries
without heap metrics leave the accumulator untouched. -/
def childrenHeap (l : List CompletedEntry) (entry : CompletedEntry) : Nat :=
  l.foldl
    (fun acc other =>
      if isChildOf entry other then
        match other.heap with
        | some other_heap => (acc + other_heap.total_heap) % U64_MOD
        | none => acc
      else acc) 0

/-- One iteration of `post_process`'s outer loop for the entry `e`.  The
Rust loop mutates entries in place while scanning the same vector, but
the scan reads only `start_sequence` / `end_sequence` / `total_cu` /
`total_heap` / heap presence — fields the loop never writes — so mapping
over the original list is behaviourally identical. -/
def postEntry (l : List CompletedEntry) (e : CompletedEntry) : CompletedEntry :=
  { e with
      net_cu := e.total_cu - childrenCu l e
      heap := e.heap.map fun h => { h with net_heap := h.total_heap - childrenHeap l e } }

def ProfilingState.post_process (s : ProfilingState) : ProfilingState :=
  { s with completed := s.completed.map (postEntry s.completed) }

def ProfilingState.clear (_ : ProfilingState) : ProfilingState :=
  ProfilingState.new

def ProfilingState.get_completed (s : ProfilingState) : List CompletedEntry :=
  s.completed

def ProfilingState.get_active (s : ProfilingState) : List ActiveEntry :=
  s.active_stack

def ProfilingState.has_active (s : ProfilingState) : Bool :=
  !s.active_stack.isEmpty

def ProfilingState.completed_count (s : ProfilingState) : Nat :=
  s.completed.length

/-! ### Characterizations of `removeLastMatch` (Rust `rposition` + `remove`) -/

theorem removeLastMatch_eq_none (id : String) (l : List ActiveEntry) :
    removeLastMatch id l = none ↔ ∀ e ∈ l, e.id ≠ id := by
  induction l with
  | nil => simp [removeLastMatch]
  | cons a t ih =>
    constructor
    · intro h e he
      simp only [removeLastMatch] at h
      cases ht : removeLastMatch id t with
      | some p => rw [ht] at h; exact absurd h (by simp)
      | none =>
        rw [ht] at h
        by_cases ha : a.id = id
        · simp [ha] at h
        · rcases List.mem_cons.mp he with rfl | he2
          · exact ha
          · exact (ih.mp ht) e he2
    · intro h
      have ht : removeLastMatch id t = none :=
        ih.mpr fun e he => h e (List.mem_cons_of_mem a he)
      have ha := h a (List.mem_cons_self a t)
      simp [removeLastMatch, ht, ha]

theorem removeLastMatch_mem (id : String) (l : List ActiveEntry)
    (e : ActiveEntry) (rest : List ActiveEntry)
    (h : removeLastMatch id l = some (e, rest)) :
    e ∈ l ∧ ∀ x ∈ rest, x ∈ l := by
  induction l generalizing e rest with
  | nil => simp [removeLastMatch] at h
  | cons a t ih =>
    simp only [removeLastMatch] at h
    cases ht : removeLastMatch id t with
    | some p =>
      rw [ht] at h
      obtain ⟨p1, p2⟩ := p
      simp only [Option.some.injEq, Prod.mk.injEq] at h
      obtain ⟨he, hrest⟩ := h
      subst he; subst hrest
      obtain ⟨h1, h2⟩ := ih p1 p2 ht
      refine ⟨List.mem_cons_of_mem a h1, ?_⟩
      intro x hx
      rcases List.mem_cons.mp hx with rfl | hx2
      · exact List.mem_cons_self x t
      · exact List.mem_cons_of_mem a (h2 x hx2)
    | none =>
      rw [ht] at h
      by_cases ha : a.id = id
      · simp only [ha, if_pos, Option.some.injEq, Prod.mk.injEq] at h
        obtain ⟨he, hrest⟩ := h
        subst he; subst hrest
        exact ⟨List.mem_cons_self _ _, fun x hx => List.mem_cons_of_mem _ hx⟩
      · simp [ha] at h

theorem removeLastMatch_spec (id : String) (l : List ActiveEntry)
    (e : ActiveEntry) (rest : List ActiveEntry)
    (h : removeLastMatch id l = some (e, rest)) :
    ∃ i, l[i]? = some e ∧ e.id = id ∧ rest = l.eraseIdx i ∧
      ∀ j y, i < j → l[j]? = some y → y.id ≠ id := by
  induction l generalizing e rest with
  | nil => simp [removeLastMatch] at h
  | cons a t ih =>
    simp only [removeLastMatch] at h
    cases ht : removeLastMatch id t with
    | some p =>
      rw [ht] at h
      obtain ⟨p1, p2⟩ := p
      simp only [Option.some.injEq, Prod.mk.injEq] at h
      obtain ⟨he, hrest⟩ := h
      subst he; subst hrest
      obtain ⟨i, hi, hid, hr, hlater⟩ := ih p1 p2 ht
      refine ⟨i + 1, by simpa using hi, hid, by simp [List.eraseIdx_cons_succ, hr], ?_⟩
      intro j y hij hj
      cases j with
      | zero => omega
      | succ j2 =>
        exact hlater j2 y (by omega) (by simpa using hj)
    | none =>
      rw [ht] at h
      by_cases ha : a.id = id
      · simp only [ha, if_pos, Option.some.injEq, Prod.mk.injEq] at h
        obtain ⟨he, hrest⟩ := h
        subst he; subst hrest
        refine ⟨0, by simp, ha ▸ rfl, by simp [List.eraseIdx_cons_zero], ?_⟩
        intro j y hij hj
        cases j with
        | zero => omega
        | succ j2 =>
          have hmem : y ∈ t := by
            have := hj
            simp only [List.getElem?_cons_succ] at this
            exact List.getElem?_mem this
          exact (removeLastMatch_eq_none id t).mp ht y hmem
      · simp [ha] at h

/-! ### The children sums of `post_process` as filtered sums -/

/-- The `total_heap` a completed entry contributes to a parent's
`children_heap` sum: its heap total when it has heap metrics, zero
otherwise. -/
def heapTotalOrZero (c : CompletedEntry) : Nat :=
  match c.heap with
  | some h => h.total_heap
  | none => 0

theorem childrenCu_foldl (e : CompletedEntry) (l : List CompletedEntry)
    (a : Nat) (ha : a < U64_MOD) :
    List.foldl
      (fun acc other =>
        if isChildOf e other then (acc + other.total_cu) % U64_MOD else acc) a l
    = (a + ((l.filter fun o => decide (isChildOf e o)).map CompletedEntry.total_cu).sum)
        % U64_MOD := by
  induction l generalizing a with
  | nil => simp [Nat.mod_eq_of_lt ha]
  | cons o t ih =>
    by_cases h : isChildOf e o
    · have hd : decide (isChildOf e o) = true := decide_eq_true h
      simp only [List.foldl_cons, if_pos h, List.filter_cons, hd, if_true,
        List.map_cons, List.sum_cons]
      rw [ih ((a + o.total_cu) % U64_MOD) (Nat.mod_lt _ (by norm_num [U64_MOD]))]
      rw [Nat.mod_add_mod, Nat.add_assoc]
    · have hd : decide (isChildOf e o) = false := decide_eq_false h
      simp only [List.foldl_cons, if_neg h, List.filter_cons, hd,
        Bool.false_eq_true, if_false]
      exact ih a ha

theorem childrenCu_eq_sum (l : List CompletedEntry) (e : CompletedEntry) :
    childrenCu l e
      = ((l.filter fun o => decide (isChildOf e o)).map CompletedEntry.total_cu).sum
          % U64_MOD := by
  have := childrenCu_foldl e l 0 (by norm_num [U64_MOD])
  simpa [childrenCu] using this

theorem childrenHeap_foldl (e : CompletedEntry) (l : List CompletedEntry)
    (a : Nat) (ha : a < U64_MOD) :
    List.foldl
      (fun acc other =>
        if isChildOf e other then
          match other.heap with
          | some other_heap => (acc + other_heap.total_heap) % U64_MOD
          | none => acc
        else acc) a l
    = (a + ((l.filter fun o => decide (isChildOf e o)).map heapTotalOrZero).sum)
        % U64_MOD := by
  induction l generalizing a with
  | nil => simp [Nat.mod_eq_of_lt ha]
  | cons o t ih =>
    by_cases h : isChildOf e o
    · have hd : decide (isChildOf e o) = true := decide_eq_true h
      cases ho : o.heap with
      | some oh =>
        have hz : heapTotalOrZero o = oh.total_heap := by simp [heapTotalOrZero, ho]
        simp only [List.foldl_cons, if_pos h, List.filter_cons, hd, if_true,
          List.map_cons, List.sum_cons, ho, hz]
        rw [ih ((a + oh.total_heap) % U64_MOD) (Nat.mod_lt _ (by norm_num [U64_MOD]))]
        rw [Nat.mod_add_mod, Nat.add_assoc]
      | none =>
        have hz : heapTotalOrZero o = 0 := by simp [heapTotalOrZero, ho]
        simp only [List.foldl_cons, if_pos h, List.filter_cons, hd, if_true,
          List.map_cons, List.sum_cons, ho, hz, Nat.zero_add]
        exact ih a ha
    · have hd : decide (isChildOf e o) = false := decide_eq_false h
      simp only [List.foldl_cons, if_neg h, List.filter_cons, hd,
        Bool.false_eq_true, if_false]
      exact ih a ha

theorem childrenHeap_eq_sum (l : List CompletedEntry) (e : CompletedEntry) :
    childrenHeap l e
      = ((l.filter fun o => decide (isChildOf e o)).map heapTotalOrZero).sum
          % U64_MOD := by
  have := childrenHeap_foldl e l 0 (by norm_num [U64_MOD])
  simpa [childrenHeap] using this

/-! ### List helpers -/

theorem eraseIdx_map {α β : Type} (f : α → β) (l : List α) (i : Nat) :
    (l.map f).eraseIdx i = (l.eraseIdx i).map f := by
  induction l generalizing i with
  | nil => simp
  | cons a t ih =>
    cases i with
    | zero => simp
    | succ j => simp [List.eraseIdx_cons_succ, ih]

theorem filter_eraseIdx_eq {α : Type} (p : α → Bool) (l : List α) (i : Nat) (x : α)
    (hx : l[i]? = some x) (hpx : p x = false) :
    (l.eraseIdx i).filter p = l.filter p := by
  induction l generalizing i with
  | nil => simp at hx
  | cons a t ih =>
    cases i with
    | zero =>
      simp only [List.getElem?_cons_zero, Option.some.injEq] at hx
      subst hx
      simp [List.eraseIdx_cons_zero, List.filter_cons, hpx]
    | succ j =>
      simp only [List.getElem?_cons_succ] at hx
      simp only [List.eraseIdx_cons_succ, List.filter_cons]
      rw [ih j hx]

theorem map_ext_list {α β : Type} (f g : α → β) (l : List α) (h : ∀ x, f x = g x) :
    l.map f = l.map g := by
  induction l with
  | nil => rfl
  | cons a t ih => simp [h a, ih]

/-! ### `postEntry` preserves everything the children scan reads -/

theorem childrenCu_entry_post (l0 l : List CompletedEntry) (e : CompletedEntry) :
    childrenCu l (postEntry l0 e) = childrenCu l e := rfl

theorem childrenHeap_entry_post (l0 l : List CompletedEntry) (e : CompletedEntry) :
    childrenHeap l (postEntry l0 e) = childrenHeap l e := rfl

theorem childrenCu_map_post (l0 l : List CompletedEntry) (e : CompletedEntry) :
    childrenCu (l.map (postEntry l0)) e = childrenCu l e := by
  unfold childrenCu
  rw [List.foldl_map]
  exact rfl

theorem childrenHeap_map_post (l0 l : List CompletedEntry) (e : CompletedEntry) :
    childrenHeap (l.map (postEntry l0)) e = childrenHeap l e := by
  unfold childrenHeap
  rw [List.foldl_map]
  congr 1
  funext acc x
  by_cases h : isChildOf e x
  · have h2 : isChildOf e (postEntry l0 x) := h
    rw [if_pos h, if_pos h2]
    cases hx : x.heap <;> simp [postEntry, hx]
  · have h2 : ¬ isChildOf e (postEntry l0 x) := h
    rw [if_neg h, if_neg h2]

theorem postEntry_fixed (M : List CompletedEntry) (e : CompletedEntry)
    (h1 : e.net_cu = e.total_cu - childrenCu M e)
    (h2 : ∀ hm, e.heap = some hm → hm.net_heap = hm.total_heap - childrenHeap M e) :
    postEntry M e = e := by
  obtain ⟨i1, i2, i3, i4, i5, i6, i7, i8, hp⟩ := e
  cases hp with
  | none => simp only [postEntry, Option.map_none'] at h1 ⊢; simp [← h1]
  | some hm =>
    obtain ⟨m1, m2, m3, m4, m5⟩ := hm
    have hn := h2 _ rfl
    simp only at h1 hn
    simp only [postEntry, Option.map_some'] at h1 ⊢
    simp [← h1, ← hn]

theorem postEntry_post (L : List CompletedEntry) (x : CompletedEntry) :
    postEntry (L.map (postEntry L)) (postEntry L x) = postEntry L x := by
  apply postEntry_fixed
  · rw [childrenCu_map_post]
    exact rfl
  · intro hm hsome
    rw [childrenHeap_map_post]
    cases hx : x.heap with
    | none =>
      rw [show (postEntry L x).heap
          = x.heap.map (fun h =>
              { h with net_heap := h.total_heap - childrenHeap L x }) from rfl,
        hx] at hsome
      simp at hsome
    | some h0 =>
      rw [show (postEntry L x).heap
          = x.heap.map (fun h =>
              { h with net_heap := h.total_heap - childrenHeap L x }) from rfl,
        hx] at hsome
      simp only [Option.map_some', Option.some.injEq] at hsome
      subst hsome
      exact rfl

/-- Claim C7: `post_process` is idempotent — running it twice with no
intervening mutation yields exactly the state after the first run, hence
identical `net_cu`/`net_heap` values. -/
theorem c7_post_process_idempotent (s : ProfilingState) :
    s.post_process.post_process = s.post_process := by
  show ProfilingState.mk s.active_stack
      ((s.completed.map (postEntry s.completed)).map
        (postEntry (s.completed.map (postEntry s.completed)))) s.next_sequence
    = ProfilingState.mk s.active_stack
        (s.completed.map (postEntry s.completed)) s.next_sequence
  have hList : (s.completed.map (postEntry s.completed)).map
      (postEntry (s.completed.map (postEntry s.completed)))
      = s.completed.map (postEntry s.completed) := by
    rw [List.map_map]
    exact map_ext_list _ _ _ fun x => postEntry_post s.completed x
  rw [hList]

/-! ### Frame of `post_process` (claim C9) -/

/-- Every field of a completed entry except the two net fields, with heap
presence and the non-net heap fields. -/
def frameFields (c : CompletedEntry) :
    String × Nat × Nat × Nat × Nat × Nat × Nat × Option (Nat × Nat × Nat × Nat) :=
  (c.id, c.start_cu, c.end_cu, c.start_sequence, c.end_sequence, c.total_cu, c.remaining_cu,
    c.heap.map fun h => (h.start_heap, h.end_heap, h.total_heap, h.remaining_heap))

theorem heapTotalOrZero_post (l0 : List CompletedEntry) (x : CompletedEntry) :
    heapTotalOrZero (postEntry l0 x) = heapTotalOrZero x := by
  cases hx : x.heap <;> simp [postEntry, heapTotalOrZero, hx]

/-- Claim C9: `post_process` touches only `net_cu` and `net_heap`: the
active stack, the sequence counter, the number of completed entries, and
every other field of every completed entry (heap presence included) are
unchanged. -/
theorem c9_post_process_frame (s : ProfilingState) :
    s.post_process.active_stack = s.active_stack ∧
    s.post_process.next_sequence = s.next_sequence ∧
    s.post_process.completed.length = s.completed.length ∧
    s.post_process.completed.map frameFields = s.completed.map frameFields := by
  refine ⟨rfl, rfl, by simp [ProfilingState.post_process], ?_⟩
  show (s.completed.map (postEntry s.completed)).map frameFields
      = s.completed.map frameFields
  rw [List.map_map]
  apply map_ext_list
  intro x
  cases hx : x.heap <;> simp [Function.comp, frameFields, postEntry, hx]

/-! ### The net formulas of `post_process` (claim C1) -/

/-- Claim C1 (with the children sums reduced modulo `2 ^ 64`, as the
`u64` accumulation of the code does): after `post_process`, every
completed entry `P` has `net_cu = total_cu(P) ⊖ Σ total_cu(C)` over the
other completed entries strictly sequence-contained in `P`, and — when
`P` has heap metrics — `net_heap = total_heap(P) ⊖ Σ total_heap(C)` over
those contained entries, contained entries without heap metrics
contributing zero; `⊖` is saturating subtraction and each `Σ` is taken
modulo `2 ^ 64`. -/
theorem c1_net_formula (s : ProfilingState) (i : Nat) (P : CompletedEntry)
    (hP : s.post_process.completed[i]? = some P) :
    P.net_cu
      = P.total_cu -
        (((s.post_process.completed.eraseIdx i).filter fun o => decide (isChildOf P o)).map
            CompletedEntry.total_cu).sum % U64_MOD
    ∧ ∀ hm, P.heap = some hm →
        hm.net_heap
          = hm.total_heap -
            (((s.post_process.completed.eraseIdx i).filter fun o => decide (isChildOf P o)).map
                heapTotalOrZero).sum % U64_MOD := by
  have hP2 : (Option.map (postEntry s.completed) s.completed[i]?) = some P := by
    rw [← List.getElem?_map]
    exact hP
  obtain ⟨e, he, hge⟩ := Option.map_eq_some'.mp hP2
  subst hge
  have hpe : (fun o => decide (isChildOf e o)) e = false := by
    refine decide_eq_false ?_
    rintro ⟨h1, -⟩
    exact lt_irrefl _ h1
  have hsum :
      (((s.post_process.completed.eraseIdx i).filter fun o =>
          decide (isChildOf (postEntry s.completed e) o)).map CompletedEntry.total_cu).sum
        = ((s.completed.filter fun o => decide (isChildOf e o)).map
            CompletedEntry.total_cu).sum := by
    show ((((s.completed.map (postEntry s.completed)).eraseIdx i).filter fun o =>
        decide (isChildOf (postEntry s.completed e) o)).map CompletedEntry.total_cu).sum = _
    rw [eraseIdx_map, List.filter_map, List.map_map]
    have hpg : ((fun o => decide (isChildOf (postEntry s.completed e) o))
        ∘ postEntry s.completed) = fun o => decide (isChildOf e o) := rfl
    have htc : (CompletedEntry.total_cu ∘ postEntry s.completed)
        = CompletedEntry.total_cu := rfl
    rw [hpg, htc, filter_eraseIdx_eq _ _ _ _ he hpe]
  have hsumh :
      (((s.post_process.completed.eraseIdx i).filter fun o =>
          decide (isChildOf (postEntry s.completed e) o)).map heapTotalOrZero).sum
        = ((s.completed.filter fun o => decide (isChildOf e o)).map
            heapTotalOrZero).sum := by
    show ((((s.completed.map (postEntry s.completed)).eraseIdx i).filter fun o =>
        decide (isChildOf (postEntry s.completed e) o)).map heapTotalOrZero).sum = _
    rw [eraseIdx_map, List.filter_map, List.map_map]
    have hpg : ((fun o => decide (isChildOf (postEntry s.completed e) o))
        ∘ postEntry s.completed) = fun o => decide (isChildOf e o) := rfl
    rw [hpg]
    simp only [Function.comp_def]
    rw [map_ext_list (fun x => heapTotalOrZero (postEntry s.completed x)) heapTotalOrZero
        _ (fun x => heapTotalOrZero_post s.completed x),
      filter_eraseIdx_eq _ _ _ _ he hpe]
  constructor
  · show e.total_cu - childrenCu s.completed e
      = e.total_cu - (_ : Nat)
    rw [hsum, ← childrenCu_eq_sum]
  · intro hm hsome
    rw [hsumh, ← childrenHeap_eq_sum]
    have hheap : (postEntry s.completed e).heap
        = e.heap.map fun h =>
            { h with net_heap := h.total_heap - childrenHeap s.completed e } := rfl
    rw [hheap] at hsome
    cases hx : e.heap with
    | none => rw [hx] at hsome; simp at hsome
    | some h0 =>
      rw [hx] at hsome
      simp only [Option.map_some', Option.some.injEq] at hsome
      subst hsome
      exact rfl

/-! ### The shape of a successful `end` -/

theorem end_some_shape (s : ProfilingState) (id : String) (cu hv : Nat) (wh : Bool)
    (e : ActiveEntry) (rest : List ActiveEntry)
    (h : removeLastMatch id s.active_stack = some (e, rest)) :
    s.end_ id cu hv wh =
      (Except.ok (),
        { active_stack := rest
          completed := s.completed ++
            [{ id := e.id
               start_cu := e.start_cu
               end_cu := cu
               start_sequence := e.start_sequence
               end_sequence := s.next_sequence
               total_cu := e.start_cu - cu
               net_cu := 0
               remaining_cu := e.start_cu
               heap :=
                 match e.start_heap with
                 | some sh =>
                   if wh then
                     some { start_heap := sh, end_heap := hv, total_heap := hv - sh,
                            net_heap := 0, remaining_heap := 32000 - sh }
                   else none
                 | none => none }]
          next_sequence := s.next_sequence + 1 }) := by
  unfold ProfilingState.end_
  rw [h]

/-- Claim C3: if no active entry carries the requested id, `end` fails
with an error message naming that id and the whole state — active stack,
completed list and `next_sequence` — is unchanged. -/
theorem c3_unmatched_end (s : ProfilingState) (id : String) (cu hv : Nat) (wh : Bool)
    (h : ∀ e ∈ s.active_stack, e.id ≠ id) :
    (s.end_ id cu hv wh).1
        = Except.error ("No active profiling section found for ID: " ++ id)
      ∧ (s.end_ id cu hv wh).2 = s := by
  have hn : removeLastMatch id s.active_stack = none :=
    (removeLastMatch_eq_none id s.active_stack).mpr h
  unfold ProfilingState.end_
  rw [hn]
  exact ⟨rfl, rfl⟩

/-- Claim C4: `end` matches the most recently pushed active entry with
the given id (no entry later in the stack has that id), removes exactly
that entry (`eraseIdx` keeps all the others in their original order),
and in the double-open double-close scenario the second open is matched
to the first close. -/
theorem c4_lifo_end :
    (∀ (s : ProfilingState) (id : String) (cu hv : Nat) (wh : Bool),
      (∃ e ∈ s.active_stack, e.id = id) →
      ∃ i x, s.active_stack[i]? = some x ∧ x.id = id ∧
        (∀ j y, i < j → s.active_stack[j]? = some y → y.id ≠ id) ∧
        (s.end_ id cu hv wh).1 = Except.ok () ∧
        (s.end_ id cu hv wh).2.active_stack = s.active_stack.eraseIdx i) ∧
    ((((((ProfilingState.new.start "x" 1000 0 false).start "x" 900 0 false).end_
          "x" 800 0 false).2.end_ "x" 700 0 false).2.completed.map
        fun c => (c.start_cu, c.end_cu))
      = [(900, 800), (1000, 700)]) := by
  constructor
  · intro s id cu hv wh hex
    cases hrm : removeLastMatch id s.active_stack with
    | none =>
      obtain ⟨e, he, heid⟩ := hex
      exact absurd heid ((removeLastMatch_eq_none id s.active_stack).mp hrm e he)
    | some pr =>
      obtain ⟨e, rest⟩ := pr
      obtain ⟨i, hi, hid, hr, hlater⟩ := removeLastMatch_spec id s.active_stack e rest hrm
      refine ⟨i, e, hi, hid, hlater, ?_, ?_⟩
      · rw [end_some_shape s id cu hv wh e rest hrm]
      · rw [end_some_shape s id cu hv wh e rest hrm]
        exact hr
  · rfl

/-- Claim C5: a completed entry carries heap metrics iff heap accounting
was requested both at its start (the active entry recorded a
`start_heap`) and at its matching end, while the CU fields are computed
unconditionally. -/
theorem c5_heap_presence_iff :
    (∀ (s : ProfilingState) (id : String) (cu hv : Nat) (wh : Bool),
      ∃ a, (s.start id cu hv wh).active_stack = s.active_stack ++ [a] ∧
        (a.start_heap.isSome = true ↔ wh = true)) ∧
    (∀ (s : ProfilingState) (id : String) (cu hv : Nat) (wh : Bool)
      (e : ActiveEntry) (rest : List ActiveEntry),
      removeLastMatch id s.active_stack = some (e, rest) →
      ∃ c : CompletedEntry,
        (s.end_ id cu hv wh).2.completed = s.completed ++ [c] ∧
        (c.heap.isSome = true ↔ (e.start_heap.isSome = true ∧ wh = true)) ∧
        c.total_cu = e.start_cu - cu ∧ c.net_cu = 0 ∧ c.remaining_cu = e.start_cu ∧
        c.end_cu = cu) := by
  constructor
  · intro s id cu hv wh
    refine ⟨{ id := id, start_cu := cu, start_sequence := s.next_sequence,
              start_heap := if wh then some hv else none }, rfl, ?_⟩
    cases wh <;> simp
  · intro s id cu hv wh e rest hrm
    rw [end_some_shape s id cu hv wh e rest hrm]
    refine ⟨_, rfl, ?_, rfl, rfl, rfl, rfl⟩
    cases hsh : e.start_heap <;> cases wh <;> simp [hsh]

/-- Claim C6: when a matched `end` produces heap metrics (heap enabled
at both ends), they are exactly `start_heap = sh`, `end_heap = hv`,
`total_heap = hv ⊖ sh`, `net_heap = 0` (until post-processing) and
`remaining_heap = 32000 ⊖ sh`; and unconditionally
`total_cu = start_cu ⊖ cu`, `remaining_cu = start_cu`, `net_cu = 0`,
with `⊖` saturating subtraction. -/
theorem c6_heap_formulas (s : ProfilingState) (id : String) (cu hv : Nat) (wh : Bool)
    (e : ActiveEntry) (rest : List ActiveEntry) (sh : Nat)
    (hrm : removeLastMatch id s.active_stack = some (e, rest))
    (hsh : e.start_heap = some sh) (hwh : wh = true) :
    ∃ c : CompletedEntry,
      (s.end_ id cu hv wh).2.completed = s.completed ++ [c] ∧
      c.heap = some { start_heap := sh, end_heap := hv, total_heap := hv - sh,
                      net_heap := 0, remaining_heap := 32000 - sh } ∧
      c.total_cu = e.start_cu - cu ∧ c.remaining_cu = e.start_cu ∧ c.net_cu = 0 := by
  subst hwh
  rw [end_some_shape s id cu hv true e rest hrm]
  refine ⟨_, rfl, ?_, rfl, rfl, rfl⟩
  simp [hsh]

/-! ### Reachable states (claim C8) -/

/-- One engine operation; `stop` models the `end` call (a Lean keyword). -/
inductive Op where
  | start (id : String) (cu hv : Nat) (wh : Bool)
  | stop (id : String) (cu hv : Nat) (wh : Bool)
  | post
  | clear
deriving DecidableEq

def applyOp (s : ProfilingState) : Op → ProfilingState
  | Op.start id cu hv wh => s.start id cu hv wh
  | Op.stop id cu hv wh => (s.end_ id cu hv wh).2
  | Op.post => s.post_process
  | Op.clear => s.clear

def run (s : ProfilingState) (ops : List Op) : ProfilingState :=
  ops.foldl applyOp s

/-- The inductive invariant: every active entry opened strictly before
`next_sequence`, and every completed entry closed strictly after it
opened. -/
def SeqInv (s : ProfilingState) : Prop :=
  (∀ e ∈ s.active_stack, e.start_sequence < s.next_sequence) ∧
  (∀ c ∈ s.completed, c.start_sequence < c.end_sequence)

theorem seqInv_applyOp (s : ProfilingState) (op : Op) (h : SeqInv s) :
    SeqInv (applyOp s op) := by
  obtain ⟨hA, hB⟩ := h
  cases op with
  | start id cu hv wh =>
    refine ⟨?_, hB⟩
    intro e he
    show e.start_sequence < s.next_sequence + 1
    rcases List.mem_append.mp he with he2 | he2
    · exact Nat.lt_succ_of_lt (hA e he2)
    · rcases List.mem_singleton.mp he2 with rfl
      exact Nat.lt_succ_self _
  | stop id cu hv wh =>
    cases hrm : removeLastMatch id s.active_stack with
    | none =>
      have hs : applyOp s (Op.stop id cu hv wh) = s := by
        show (s.end_ id cu hv wh).2 = s
        unfold ProfilingState.end_
        rw [hrm]
      rw [hs]
      exact ⟨hA, hB⟩
    | some pr =>
      obtain ⟨e, rest⟩ := pr
      obtain ⟨heMem, hsub⟩ := removeLastMatch_mem id s.active_stack e rest hrm
      have hs : applyOp s (Op.stop id cu hv wh) = (s.end_ id cu hv wh).2 := rfl
      rw [hs, end_some_shape s id cu hv wh e rest hrm]
      constructor
      · intro x hx
        exact Nat.lt_succ_of_lt (hA x (hsub x hx))
      · intro c hc
        rcases List.mem_append.mp hc with hc2 | hc2
        · exact hB c hc2
        · rcases List.mem_singleton.mp hc2 with rfl
          exact hA e heMem
  | post =>
    refine ⟨hA, ?_⟩
    intro c hc
    obtain ⟨c0, hc0, hcc⟩ := List.mem_map.mp hc
    have h1 : c.start_sequence = c0.start_sequence := by rw [← hcc]; rfl
    have h2 : c.end_sequence = c0.end_sequence := by rw [← hcc]; rfl
    rw [h1, h2]
    exact hB c0 hc0
  | clear =>
    exact ⟨by intro e he; simp [applyOp, ProfilingState.clear, ProfilingState.new] at he,
      by intro c hc; simp [applyOp, ProfilingState.clear, ProfilingState.new] at hc⟩

theorem seqInv_run (ops : List Op) (s : ProfilingState) (h : SeqInv s) :
    SeqInv (run s ops) := by
  induction ops generalizing s with
  | nil => exact h
  | cons op t ih => exact ih (applyOp s op) (seqInv_applyOp s op h)

theorem seqInv_new : SeqInv ProfilingState.new :=
  ⟨by intro e he; simp [ProfilingState.new] at he,
    by intro c hc; simp [ProfilingState.new] at hc⟩

/-- Claim C8: `next_sequence` advances by exactly one per recorded event
(each `start` and each successful `end`, with a failed `end` changing
nothing), the new entry's sequence number is taken from the shared
counter at the moment the event is recorded, and in every state
reachable from a fresh (or cleared — `clear` resets to the fresh state)
engine every completed entry satisfies
`start_sequence < end_sequence`. -/
theorem c8_sequence_invariants :
    (∀ (s : ProfilingState) (id : String) (cu hv : Nat) (wh : Bool),
      (s.start id cu hv wh).next_sequence = s.next_sequence + 1 ∧
      ∃ a, (s.start id cu hv wh).active_stack = s.active_stack ++ [a] ∧
        a.start_sequence = s.next_sequence) ∧
    (∀ (s : ProfilingState) (id : String) (cu hv : Nat) (wh : Bool),
      ((s.end_ id cu hv wh).1 = Except.ok () →
        (s.end_ id cu hv wh).2.next_sequence = s.next_sequence + 1 ∧
        ∃ c, (s.end_ id cu hv wh).2.completed = s.completed ++ [c] ∧
          c.end_sequence = s.next_sequence) ∧
      ((s.end_ id cu hv wh).1 ≠ Except.ok () → (s.end_ id cu hv wh).2 = s)) ∧
    (∀ s : ProfilingState, s.clear = ProfilingState.new) ∧
    (∀ ops : List Op, ∀ c ∈ (run ProfilingState.new ops).completed,
      c.start_sequence < c.end_sequence) := by
  refine ⟨?_, ?_, fun s => rfl, ?_⟩
  · intro s id cu hv wh
    exact ⟨rfl, ⟨_, rfl, rfl⟩⟩
  · intro s id cu hv wh
    cases hrm : removeLastMatch id s.active_stack with
    | none =>
      have herr : (s.end_ id cu hv wh).1
          = Except.error ("No active profiling section found for ID: " ++ id) := by
        unfold ProfilingState.end_
        rw [hrm]
      constructor
      · intro hok
        rw [herr] at hok
        exact absurd hok (by simp)
      · intro _
        unfold ProfilingState.end_
        rw [hrm]
    | some pr =>
      obtain ⟨e, rest⟩ := pr
      rw [end_some_shape s id cu hv wh e rest hrm]
      exact ⟨fun _ => ⟨rfl, ⟨_, rfl, rfl⟩⟩, fun hne => absurd rfl hne⟩
  · intro ops c hc
    exact (seqInv_run ops ProfilingState.new seqInv_new).2 c hc

/-! ### Concrete heap scenario (claim C2) -/

def c2s1 : ProfilingState := ProfilingState.new.start "outer" 5000 1000 true
def c2s2 : ProfilingState := c2s1.start "inner" 4500 1200 true
def c2e1 : Except String Unit × ProfilingState := c2s2.end_ "inner" 4000 1400 true
def c2e2 : Except String Unit × ProfilingState := c2e1.2.end_ "outer" 3500 1600 true
def c2final : ProfilingState := c2e2.2.post_process

/-- The id and heap metrics of a completed entry, the metrics listed in
the order start, end, total, net, remaining. -/
def heapView (c : CompletedEntry) : String × Option (List Nat) :=
  (c.id, c.heap.map fun h =>
    [h.start_heap, h.end_heap, h.total_heap, h.net_heap, h.remaining_heap])

/-- Claim C2 as stated is false: in the scenario the code computes
`remaining_heap = 32000 ⊖ start_heap` (30800 for "inner", 31000 for
"outer"), not the end-heap values 1400/1600 the claim asserts. -/
theorem c2_counterexample :
    ¬ (c2final.completed.map heapView
        = [("inner", some [1200, 1400, 200, 200, 1400]),
           ("outer", some [1000, 1600, 600, 400, 1600])]) := by
  decide

/-- Claim C2 (amended): the scenario yields the claimed heap metrics
except that `remaining_heap` is 30800 for "inner" and 31000 for "outer"
(`32000 ⊖ start_heap`, per the code); both `end` calls succeed. -/
theorem c2_amended_scenario :
    c2e1.1 = Except.ok () ∧ c2e2.1 = Except.ok () ∧
    c2final.completed.map heapView
      = [("inner", some [1200, 1400, 200, 200, 30800]),
         ("outer", some [1000, 1600, 600, 400, 31000])] :=
  ⟨rfl, rfl, rfl⟩

/-! ### Wrapping of the children sums (claims C10 and C1's counterexample) -/

def c10s1 : ProfilingState := ProfilingState.new.start "P" (U64_MOD - 1) 0 false
def c10s2 : ProfilingState := c10s1.start "C1" (U64_MOD - 1) 0 false
def c10s3 : ProfilingState := (c10s2.end_ "C1" 0 0 false).2
def c10s4 : ProfilingState := c10s3.start "C2" (U64_MOD - 1) 0 false
def c10s5 : ProfilingState := (c10s4.end_ "C2" 0 0 false).2
def c10s6 : ProfilingState := (c10s5.end_ "P" 0 0 false).2
def c10final : ProfilingState := c10s6.post_process

/-- Claim C10: the children totals are accumulated with wrapping `u64`
addition, not saturating addition — in this reachable state the two
contained entries of "P" have totals summing to `2 ^ 65 - 2`, past
`2 ^ 64 - 1`, the wrapped sum is `2 ^ 64 - 2` and `net_cu("P")` comes
out as 1, whereas the true mathematical sum (which exceeds
`total_cu("P")`) would saturate `net_cu` to 0. -/
theorem c10_wrapped_children_sum :
    c10final.completed.map (fun c => (c.id, c.total_cu, c.net_cu))
      = [("C1", U64_MOD - 1, U64_MOD - 1), ("C2", U64_MOD - 1, U64_MOD - 1),
         ("P", U64_MOD - 1, 1)] ∧
    ((c10final.completed.filter fun o =>
        decide (0 < o.start_sequence ∧ o.end_sequence < 5)).map
      CompletedEntry.total_cu).sum = 2 * U64_MOD - 2 ∧
    U64_MOD - 1 < 2 * U64_MOD - 2 ∧
    (U64_MOD - 1) - (2 * U64_MOD - 2) = 0 := by
  refine ⟨rfl, rfl, by decide, by decide⟩

/-- The post-processed parent entry of the `c10` trace. -/
def c1cexP : CompletedEntry :=
  { id := "P", start_cu := U64_MOD - 1, end_cu := 0, start_sequence := 0,
    end_sequence := 5, total_cu := U64_MOD - 1, net_cu := 1,
    remaining_cu := U64_MOD - 1, heap := none }

/-- Claim C1 as stated (with a true mathematical children sum, no
modulus) is false: for the parent of the `c10` trace the code computes
`net_cu = 1` from the wrapped sum, while `total_cu ⊖ (true sum)` is 0. -/
theorem c1_counterexample :
    c10final.completed[2]? = some c1cexP ∧
    ¬ (c1cexP.net_cu
        = c1cexP.total_cu -
          (((c10final.completed.eraseIdx 2).filter fun o =>
              decide (isChildOf c1cexP o)).map CompletedEntry.total_cu).sum) := by
  refine ⟨rfl, by decide⟩

/-! ### Witnesses: the hypothesis-bearing theorems at concrete inputs -/

/-- The post-processed heap metrics of "outer" in the `c2` trace. -/
def c1wHeap : HeapMetrics :=
  { start_heap := 1000, end_heap := 1600, total_heap := 600, net_heap := 400,
    remaining_heap := 31000 }

/-- The post-processed "outer" entry of the `c2` trace. -/
def c1wOuter : CompletedEntry :=
  { id := "outer", start_cu := 5000, end_cu := 3500, start_sequence := 0,
    end_sequence := 3, total_cu := 1500, net_cu := 1000, remaining_cu := 5000,
    heap := some c1wHeap }

theorem c1_net_formula_witness :
    c1wOuter.net_cu
      = c1wOuter.total_cu -
        (((c2final.completed.eraseIdx 1).filter fun o =>
            decide (isChildOf c1wOuter o)).map CompletedEntry.total_cu).sum % U64_MOD ∧
    c1wHeap.net_heap
      = c1wHeap.total_heap -
        (((c2final.completed.eraseIdx 1).filter fun o =>
            decide (isChildOf c1wOuter o)).map heapTotalOrZero).sum % U64_MOD :=
  ⟨(c1_net_formula c2e2.2 1 c1wOuter rfl).1,
   (c1_net_formula c2e2.2 1 c1wOuter rfl).2 c1wHeap rfl⟩

def c3wS : ProfilingState := ProfilingState.new.start "a" 5 0 false

theorem c3_unmatched_end_witness :
    (c3wS.end_ "b" 3 0 false).1
        = Except.error ("No active profiling section found for ID: " ++ "b")
      ∧ (c3wS.end_ "b" 3 0 false).2 = c3wS :=
  c3_unmatched_end c3wS "b" 3 0 false (by decide)

def c4wS : ProfilingState := (ProfilingState.new.start "a" 9 0 false).start "b" 7 0 false

theorem c4_lifo_end_witness :
    ∃ i x, c4wS.active_stack[i]? = some x ∧ x.id = "a" ∧
      (∀ j y, i < j → c4wS.active_stack[j]? = some y → y.id ≠ "a") ∧
      (c4wS.end_ "a" 5 0 false).1 = Except.ok () ∧
      (c4wS.end_ "a" 5 0 false).2.active_stack = c4wS.active_stack.eraseIdx i :=
  c4_lifo_end.1 c4wS "a" 5 0 false
    ⟨{ id := "a", start_cu := 9, start_sequence := 0, start_heap := none },
      by decide, rfl⟩

def c5wS : ProfilingState := ProfilingState.new.start "a" 100 7 true

def c5wE : ActiveEntry :=
  { id := "a", start_cu := 100, start_sequence := 0, start_heap := some 7 }

theorem c5_heap_presence_iff_witness :
    (∃ a, (c5wS.start "b" 50 3 false).active_stack = c5wS.active_stack ++ [a] ∧
      (a.start_heap.isSome = true ↔ false = true)) ∧
    (∃ c : CompletedEntry,
      (c5wS.end_ "a" 40 9 true).2.completed = c5wS.completed ++ [c] ∧
      (c.heap.isSome = true ↔ (c5wE.start_heap.isSome = true ∧ true = true)) ∧
      c.total_cu = c5wE.start_cu - 40 ∧ c.net_cu = 0 ∧
      c.remaining_cu = c5wE.start_cu ∧ c.end_cu = 40) :=
  ⟨c5_heap_presence_iff.1 c5wS "b" 50 3 false,
   c5_heap_presence_iff.2 c5wS "a" 40 9 true c5wE [] rfl⟩

theorem c6_heap_formulas_witness :
    ∃ c : CompletedEntry,
      (c5wS.end_ "a" 40 9 true).2.completed = c5wS.completed ++ [c] ∧
      c.heap = some { start_heap := 7, end_heap := 9, total_heap := 9 - 7,
                      net_heap := 0, remaining_heap := 32000 - 7 } ∧
      c.total_cu = c5wE.start_cu - 40 ∧ c.remaining_cu = c5wE.start_cu ∧ c.net_cu = 0 :=
  c6_heap_formulas c5wS "a" 40 9 true c5wE [] 7 rfl rfl rfl

def c8wOps : List Op := [Op.start "a" 5 0 false, Op.stop "a" 3 0 false]

/-- The single completed entry the `c8wOps` trace produces. -/
def c8wC : CompletedEntry :=
  { id := "a", start_cu := 5, end_cu := 3, start_sequence := 0, end_sequence := 1,
    total_cu := 2, net_cu := 0, remaining_cu := 5, heap := none }

theorem c8_sequence_invariants_witness :
    c8wC.start_sequence < c8wC.end_sequence ∧
    (((ProfilingState.new.start "a" 5 0 false).end_ "a" 3 0 false).2.next_sequence
        = (ProfilingState.new.start "a" 5 0 false).next_sequence + 1 ∧
      ∃ c, ((ProfilingState.new.start "a" 5 0 false).end_ "a" 3 0 false).2.completed
          = (ProfilingState.new.start "a" 5 0 false).completed ++ [c] ∧
        c.end_sequence = (ProfilingState.new.start "a" 5 0 false).next_sequence) :=
  ⟨c8_sequence_invariants.2.2.2 c8wOps c8wC (by decide),
   (c8_sequence_invariants.2.1 (ProfilingState.new.start "a" 5 0 false) "a" 3 0 false).1 rfl⟩
